import Mathlib

/-!
Verification of the RustQIP core pipeline (src/qip/pipeline.rs and
src/common_circuits.rs): the provenance-graph linearizer, the dense
double-buffered state engine, and the sequential runner.

The graph data model (qubits.rs) and the state-operation payloads
(state_ops.rs) are not part of the sources; where a definition below
depends on them it is modelled from the specification document and its
doc comment says so.  Registers carry a stable numeric identifier that
imposes a total order (used by the BinaryHeap) and equality of registers
is identifier equality.

Amplitudes are exact elements of the ring Q(sqrt 2), represented as
pairs of rationals, so that the Hadamard entry 1/sqrt 2 is an exact,
computable value and floating tolerance statements become equalities.
-/

/-- Rational addition implemented through mkRat (kept kernel-computable). -/
def rAdd (x y : Rat) : Rat := mkRat (x.num * y.den + y.num * x.den) (x.den * y.den)

/-- Rational multiplication implemented through mkRat. -/
def rMul (x y : Rat) : Rat := mkRat (x.num * y.num) (x.den * y.den)

/-- Rational negation implemented through mkRat. -/
def rNeg (x : Rat) : Rat := mkRat (-x.num) x.den

/-- Elements of the ring Q(sqrt 2): the pair (a, b) denotes a + b * sqrt 2.
Used as the scalar type for amplitudes so all gate arithmetic is exact. -/
structure Q2 where
  a : Rat
  b : Rat
deriving DecidableEq, Repr

instance : Zero Q2 := ⟨⟨0, 0⟩⟩
instance : One Q2 := ⟨⟨1, 0⟩⟩
instance : Add Q2 := ⟨fun x y => ⟨rAdd x.a y.a, rAdd x.b y.b⟩⟩
instance : Neg Q2 := ⟨fun x => ⟨rNeg x.a, rNeg x.b⟩⟩
instance : Mul Q2 :=
  ⟨fun x y => ⟨rAdd (rMul x.a y.a) (rMul 2 (rMul x.b y.b)), rAdd (rMul x.a y.b) (rMul x.b y.a)⟩⟩

/-- The value 1 / sqrt 2, exactly: (1/2) * sqrt 2. -/
def invSqrt2 : Q2 := ⟨0, mkRat 1 2⟩

/-- Complex numbers over Q(sqrt 2); the shallow embedding of the
Complex f64 amplitudes of the dense engine, made exact. -/
structure Cpx where
  re : Q2
  im : Q2
deriving DecidableEq, Repr

instance : Zero Cpx := ⟨⟨0, 0⟩⟩
instance : One Cpx := ⟨⟨1, 0⟩⟩
instance : Add Cpx := ⟨fun x y => ⟨x.re + y.re, x.im + y.im⟩⟩
instance : Mul Cpx := ⟨fun x y => ⟨x.re * y.re + -(x.im * y.im), x.re * y.im + x.im * y.re⟩⟩

/-- Squared magnitude of an amplitude, as an element of Q(sqrt 2). -/
def magSq (c : Cpx) : Q2 := c.re * c.re + c.im * c.im

/-- Modelled from the spec: state_ops.rs QubitOp (not under src/) - a named
transform is its target wire offsets plus a square matrix payload of
side 2 ^ indices.length, stored row-major. -/
structure QOp where
  indices : List Nat
  mat : List Cpx
deriving DecidableEq, Repr

/-- Modelled from the spec: qubits.rs Parent (not under src/) - the tagged
union of provenance descriptors.  Owned lists the consumed parent
registers (as handles into the node table) together with the optional
operation; Shared names the aliased referent. -/
inductive Parent where
  | owned : List Nat → Option QOp → Parent
  | shared : Nat → Parent
deriving DecidableEq, Repr

/-- Modelled from the spec: qubits.rs Qubit (not under src/) - a register
has a stable identifier imposing a total order, the ordered list of wire
indices it denotes, and an optional parent descriptor. -/
structure Node where
  id : Nat
  indices : List Nat
  parent : Option Parent
deriving DecidableEq, Repr

/-- A provenance graph as an explicit node table; handles are positions. -/
structure Graph where
  nodes : List Node
deriving DecidableEq, Repr

/-- Node lookup by handle (out-of-range handles yield an inert default;
well-formed graphs never reach it). -/
def getNode (g : Graph) (h : Nat) : Node := g.nodes.getD h ⟨0, [], none⟩

/-- The register identifier at a handle; the BinaryHeap priority. -/
def nodeId (g : Graph) (h : Nat) : Nat := (getNode g h).id

/-- All parent handles of a node, whichever descriptor it carries. -/
def parentHandles (g : Graph) (h : Nat) : List Nat :=
  match (getNode g h).parent with
  | none => []
  | some (Parent.owned ps _) => ps
  | some (Parent.shared p) => [p]

/-- Every parent handle of an in-range node is again in range. -/
def WFGraph (g : Graph) : Prop :=
  ∀ h, h < g.nodes.length → ∀ p ∈ parentHandles g h, p < g.nodes.length

/-- A rank function witnessing acyclicity: bounded by the node count and
strictly decreasing along every parent edge. -/
def RankedBy (g : Graph) (rank : Nat → Nat) : Prop :=
  (∀ h, rank h ≤ g.nodes.length) ∧
    ∀ h, h < g.nodes.length → ∀ p ∈ parentHandles g h, rank p < rank h

/-- The number of parent handles a node descriptor carries. -/
def nodePLen (nd : Node) : Nat :=
  match nd.parent with
  | none => 0
  | some (Parent.owned ps _) => ps.length
  | some (Parent.shared _) => 1

/-- The largest parent-list length over the node table. -/
def maxParentLen (g : Graph) : Nat :=
  g.nodes.foldr (fun nd acc => max (nodePLen nd) acc) 0

/-! ## Dense state engine (state_ops.rs is not under src/; modelled from the spec) -/

/-- Bit p of the natural number x. -/
def bitOfIdx (x p : Nat) : Nat := x / 2 ^ p % 2

/-- Modelled from the spec: the state-vector bit position of wire w in an
n-wire state (wire 0 is the most significant bit of the amplitude index). -/
def wireBitPos (n w : Nat) : Nat := n - 1 - w

/-- Modelled from the spec: the matrix row selected by amplitude index i -
the bits of i at the operation's target wires, first target wire most
significant. -/
def gatherRow (n : Nat) (ws : List Nat) (i : Nat) : Nat :=
  ws.foldl (fun acc w => 2 * acc + bitOfIdx i (wireBitPos n w)) 0

/-- Modelled from the spec: bit p of the source amplitude index obtained
from destination index i by substituting the column bits j at the target
wires. -/
def srcBit (n : Nat) (ws : List Nat) (i j p : Nat) : Nat :=
  match (ws.map (wireBitPos n)).findIdx? (fun q => q = p) with
  | some t => bitOfIdx j (ws.length - 1 - t)
  | none => bitOfIdx i p

/-- Modelled from the spec: the source amplitude index for destination
index i and matrix column j. -/
def srcIdx (n : Nat) (ws : List Nat) (i j : Nat) : Nat :=
  (List.range n).foldl (fun acc p => acc + 2 ^ p * srcBit n ws i j p) 0

/-- Matrix entry at row r, column j (row-major, side 2 ^ indices.length). -/
def matIdx (op : QOp) (r j : Nat) : Cpx :=
  op.mat.getD (r * 2 ^ op.indices.length + j) 0

/-- Modelled from the spec: the updated amplitude at destination index i -
the row of the operation matrix selected by i's target-wire bits, dotted
with the source amplitudes sharing all untouched-wire bits with i. -/
def newAmp (n : Nat) (op : QOp) (state : List Cpx) (i : Nat) : Cpx :=
  (List.range (2 ^ op.indices.length)).foldl
    (fun acc j =>
      acc + matIdx op (gatherRow n op.indices i) j * state.getD (srcIdx n op.indices i j) 0)
    0

/-- Modelled from the spec: the single-threaded pass - every destination
amplitude index updated in one sequential sweep. -/
def applyOpSeq (n : Nat) (op : QOp) (state : List Cpx) : List Cpx :=
  (List.range (2 ^ n)).map (newAmp n op state)

/-- Split a list into chunks of size c + 1 (the partition of the amplitude
index space handed to the workers). -/
def splitChunks (c : Nat) (l : List Nat) : List (List Nat) :=
  match l with
  | [] => []
  | x :: xs => (x :: xs).take (c + 1) :: splitChunks c ((x :: xs).drop (c + 1))
termination_by l.length
decreasing_by simp [List.length_drop]; omega

/-- Modelled from the spec: the parallel path - the amplitude index space
is partitioned into chunks of size c + 1, each chunk is processed
independently with the same update rule, and the write-disjoint results
are concatenated. -/
def applyOpPar (n : Nat) (op : QOp) (state : List Cpx) (c : Nat) : List Cpx :=
  ((splitChunks c (List.range (2 ^ n))).map (List.map (newAmp n op state))).flatten

/-- Modelled from the spec: state_ops.rs PARALLEL_THRESHOLD - the
configured wire-count bound above which the parallel path is taken (the
sources outside src/ fix the value; any value yields the same results). -/
def PARALLEL_THRESHOLD : Nat := 12

/-- Modelled from the spec: the chunk-size parameter the parallel path
partitions with (chunks of size PAR_CHUNK + 1). -/
def PAR_CHUNK : Nat := 1023

/-- Modelled from the spec: state_ops.rs apply_op - dispatches on the
multithreading flag and computes every updated amplitude from the frozen
input buffer. -/
def apply_op (n : Nat) (op : QOp) (state : List Cpx) (parallel : Bool) : List Cpx :=
  if parallel then applyOpPar n op state PAR_CHUNK else applyOpSeq n op state

/-! ## LocalQuantumState (pipeline.rs lines 18-46) -/

/-- The dense state bundle: wire count, primary amplitude buffer, scratch
buffer (pipeline.rs LocalQuantumState). -/
structure LocalQuantumState where
  n : Nat
  state : List Cpx
  arena : List Cpx
deriving DecidableEq, Repr

/-- LocalQuantumState::new (pipeline.rs lines 26-38): a vector of 2 ^ n
zero amplitudes with the real part of entry 0 set to 1, cloned into both
buffers. -/
def LocalQuantumState.new (n : Nat) : LocalQuantumState :=
  let cvec : List Cpx := ((List.range (2 ^ n)).map (fun _ => (0 : Cpx))).set 0 1
  ⟨n, cvec, cvec⟩

/-- QuantumState::apply_op for LocalQuantumState (pipeline.rs lines 41-46):
apply_op writes the updated amplitudes into the arena (parallel exactly
when n exceeds PARALLEL_THRESHOLD), then the two buffers are swapped. -/
def LocalQuantumState.applyOp (s : LocalQuantumState) (op : QOp) : LocalQuantumState :=
  ⟨s.n, apply_op s.n op s.state (decide (PARALLEL_THRESHOLD < s.n)), s.state⟩

/-! ## Graph linearizer (pipeline.rs lines 66-107) -/

/-- BinaryHeap::pop - removes a pending register of maximal identifier
(qubits.rs Ord is modelled from the spec as the order on the stable
register identifier; among equal identifiers the earliest entry wins). -/
def popMax (g : Graph) : List Nat → Option (Nat × List Nat)
  | [] => none
  | x :: xs =>
    match popMax g xs with
    | none => some (x, [])
    | some (y, rest) => if nodeId g x < nodeId g y then some (y, x :: rest) else some (x, xs)

/-- qubit_in_heap (pipeline.rs lines 100-107): scans the current pending
heap comparing registers with == (qubits.rs equality is modelled from the
spec as identifier equality). -/
def qubit_in_heap (g : Graph) (q : Nat) (heap : List Nat) : Bool :=
  heap.any (fun hq => nodeId g hq == nodeId g q)

/-- VecDeque::push_front of an optional operation onto the queue. -/
def pushOp (op : Option QOp) (queue : List QOp) : List QOp :=
  match op with
  | some o => o :: queue
  | none => queue

/-- The traversal loop of get_opfns_and_frontier (pipeline.rs lines
71-96), with an explicit iteration budget: pop the maximal pending
register; a frontier register is appended to the frontier list, an Owned
parent pushes its operation to the front of the queue and enqueues every
parent unconditionally, a Shared parent enqueues its referent only when
no register of the same identifier is currently pending. -/
def loopFuel (g : Graph) : Nat → List Nat → List Nat → List QOp → Option (List Nat × List QOp)
  | 0, heap, frontier, queue =>
    match popMax g heap with
    | none => some (frontier, queue)
    | some _ => none
  | fuel + 1, heap, frontier, queue =>
    match popMax g heap with
    | none => some (frontier, queue)
    | some (x, rest) =>
      match (getNode g x).parent with
      | some (Parent.owned ps op) => loopFuel g fuel (rest ++ ps) frontier (pushOp op queue)
      | some (Parent.shared p) =>
        loopFuel g fuel (if qubit_in_heap g p rest then rest else rest ++ [p]) frontier queue
      | none => loopFuel g fuel rest (frontier ++ [x]) queue

/-- The same loop recording operations in backward discovery order
(push_back instead of push_front); used to state that the returned
operation list reverses discovery order. -/
def loopFuelDisc (g : Graph) : Nat → List Nat → List Nat → List QOp → Option (List Nat × List QOp)
  | 0, heap, frontier, queue =>
    match popMax g heap with
    | none => some (frontier, queue)
    | some _ => none
  | fuel + 1, heap, frontier, queue =>
    match popMax g heap with
    | none => some (frontier, queue)
    | some (x, rest) =>
      match (getNode g x).parent with
      | some (Parent.owned ps op) =>
        loopFuelDisc g fuel (rest ++ ps) frontier (queue ++ (pushOp op []))
      | some (Parent.shared p) =>
        loopFuelDisc g fuel (if qubit_in_heap g p rest then rest else rest ++ [p]) frontier queue
      | none => loopFuelDisc g fuel rest (frontier ++ [x]) queue

/-- An iteration budget sufficient for every acyclic graph: with
W = maxParentLen + 2 every pop strictly decreases the measure
sum of W ^ rank over the pending heap, which starts below W ^ (N + 1). -/
def linFuel (g : Graph) : Nat := (maxParentLen g + 2) ^ (g.nodes.length + 1)

/-- get_opfns_and_frontier (pipeline.rs lines 66-98): seed the heap with
the terminal register and run the traversal loop; returns the frontier
in arrival order and the operation queue front to back. -/
def get_opfns_and_frontier (g : Graph) (t : Nat) : Option (List Nat × List QOp) :=
  loopFuel g (linFuel g) [t] [] []

/-- The traversal observed in backward discovery order (for the reversal
statement about the operation queue). -/
def get_ops_discovery (g : Graph) (t : Nat) : Option (List Nat × List QOp) :=
  loopFuelDisc g (linFuel g) [t] [] []

/-! ## Runner (pipeline.rs lines 48-64) -/

/-- fold_apply_op (pipeline.rs lines 48-51): apply one operation to the
folded state (QuantumState::apply_op abstracted as a pure step). -/
def fold_apply_op {QS : Type} (ap : QS → QOp → QS) (s : QS) (op : QOp) : QS := ap s op

/-- run_with_state (pipeline.rs lines 60-64): linearize, build the
initial state from the returned frontier, fold the returned operation
list onto it. -/
def run_with_state {QS : Type} (ap : QS → QOp → QS) (g : Graph) (t : Nat)
    (state_builder : List Nat → QS) : Option QS :=
  match get_opfns_and_frontier g t with
  | none => none
  | some (frontier, ops) => some (ops.foldl (fold_apply_op ap) (state_builder frontier))

/-- The wire count of the default factory: the sum over the frontier of
the number of wire indices each register denotes. -/
def sumWires (g : Graph) (fr : List Nat) : Nat :=
  (fr.map (fun h => (getNode g h).indices.length)).sum

/-- run (pipeline.rs lines 53-58): run_with_state with the default
factory, which sums frontier wire counts and builds the ground state. -/
def run (g : Graph) (t : Nat) : Option LocalQuantumState :=
  run_with_state LocalQuantumState.applyOp g t (fun fr => LocalQuantumState.new (sumWires g fr))

/-- One-operation-at-a-time sequential application, the reference for
the strictly-in-order fold. -/
def applySeq {QS : Type} (ap : QS → QOp → QS) : QS → List QOp → QS
  | s, [] => s
  | s, op :: ops => applySeq ap (ap s op) ops

/-! ## Concrete gates and graphs used by the tests -/

/-- Modelled from the spec: the Hadamard operation on wire 0 - matrix
(1 / sqrt 2) * [[1, 1], [1, -1]]. -/
def hOp : QOp :=
  ⟨[0], [⟨invSqrt2, 0⟩, ⟨invSqrt2, 0⟩, ⟨invSqrt2, 0⟩, ⟨-invSqrt2, 0⟩]⟩

/-- Modelled from the spec: the NOT operation on wire 0 - matrix
[[0, 1], [1, 0]]. -/
def xOp : QOp := ⟨[0], [0, 1, 1, 0]⟩

/-- Modelled from the spec: the controlled-not produced by conditioning a
NOT on wire 1 with control wire 0 (the operation recorded by condition in
common_circuits.rs lines 85-98 via the builder, which is not under src/). -/
def cnotOp : QOp :=
  ⟨[0, 1],
   [1, 0, 0, 0,
    0, 1, 0, 0,
    0, 0, 0, 1,
    0, 0, 1, 0]⟩

/-- A zero-operation graph over two frontier wires: registers A (wire 0)
and B (wire 1) merged into the terminal without any operation. -/
def g2 : Graph :=
  ⟨[⟨0, [0], none⟩,
    ⟨1, [1], none⟩,
    ⟨2, [0, 1], some (Parent.owned [0, 1] none)⟩]⟩

/-- A register that is owned-consumed once and additionally reached
through a shared alias: A (id 1) is consumed by B (id 2) and aliased by
S (id 3); the terminal merges B and S.  The alias S pops before B, finds
A not yet pending and enqueues it; B then enqueues A unconditionally, so
A is popped twice. -/
def gBug : Graph :=
  ⟨[⟨1, [0], none⟩,
    ⟨2, [0], some (Parent.owned [0] none)⟩,
    ⟨3, [0], some (Parent.shared 0)⟩,
    ⟨4, [0], some (Parent.owned [1, 2] none)⟩]⟩

/-- A two-operation chain: wire 0, Hadamard, then NOT. -/
def gLine : Graph :=
  ⟨[⟨0, [0], none⟩,
    ⟨1, [0], some (Parent.owned [0] (some hOp))⟩,
    ⟨2, [0], some (Parent.owned [1] (some xOp))⟩]⟩

/-- A malformed cyclic graph: one register that is a shared alias of
itself. -/
def gCyc : Graph := ⟨[⟨0, [], some (Parent.shared 0)⟩]⟩

/-- Modelled from the spec: the provenance graph built by epr_pair
(common_circuits.rs lines 101-119) for n = 1 through the builder (not
under src/): Hadamard on wire 0, a conditioned NOT on wire 1 with the
Hadamard output as shared control, and operation-free merges. -/
def eprGraph : Graph :=
  ⟨[⟨0, [0], none⟩,
    ⟨1, [1], none⟩,
    ⟨2, [0], some (Parent.owned [0] (some hOp))⟩,
    ⟨3, [1], some (Parent.owned [1] (some cnotOp))⟩,
    ⟨4, [0], some (Parent.shared 2)⟩,
    ⟨5, [0, 1], some (Parent.owned [4, 3] none)⟩]⟩


/-! ## Helper lemmas: parallel partitioning -/

/-- Reassembling the chunks of a partition restores the list. -/
theorem flatten_splitChunks (c : Nat) : ∀ l : List Nat, (splitChunks c l).flatten = l
  | [] => by rw [splitChunks]; rfl
  | x :: xs => by
    rw [splitChunks, List.flatten_cons, flatten_splitChunks c ((x :: xs).drop (c + 1)),
      List.take_append_drop]
termination_by l => l.length
decreasing_by simp [List.length_drop]; omega

/-- Mapping over every chunk and flattening equals mapping over the whole. -/
theorem flatten_map_map {α β : Type} (f : α → β) :
    ∀ L : List (List α), (L.map (List.map f)).flatten = L.flatten.map f := by
  intro L
  induction L with
  | nil => rfl
  | cons x xs ih => rw [List.map_cons, List.flatten_cons, List.flatten_cons, List.map_append, ih]

/-- The partitioned pass computes exactly the sequential pass. -/
theorem applyOpPar_eq_seq (n : Nat) (op : QOp) (st : List Cpx) (c : Nat) :
    applyOpPar n op st c = applyOpSeq n op st := by
  unfold applyOpPar applyOpSeq
  rw [flatten_map_map, flatten_splitChunks]

/-! ## Helper lemmas: the sequential fold -/

/-- foldl with fold_apply_op is one-at-a-time sequential application. -/
theorem foldl_eq_applySeq {QS : Type} (ap : QS → QOp → QS) (ops : List QOp) (s : QS) :
    ops.foldl (fold_apply_op ap) s = applySeq ap s ops := by
  induction ops generalizing s with
  | nil => rfl
  | cons op ops ih => simp [applySeq, List.foldl_cons, fold_apply_op, ih]

/-- Sequential application over an appended list factors in order. -/
theorem applySeq_append {QS : Type} (ap : QS → QOp → QS) (l1 l2 : List QOp) (s : QS) :
    applySeq ap s (l1 ++ l2) = applySeq ap (applySeq ap s l1) l2 := by
  induction l1 generalizing s with
  | nil => rfl
  | cons op ops ih => simp [applySeq, ih]

/-- Taking one more element appends exactly the element at that position. -/
theorem take_succ_getD {α : Type} (l : List α) (i : Nat) (d : α) (hi : i < l.length) :
    l.take (i + 1) = l.take i ++ [l.getD i d] := by
  induction l generalizing i with
  | nil => simp at hi
  | cons x xs ih =>
    cases i with
    | zero => simp [List.getD]
    | succ i => simp only [List.take_succ_cons, List.getD_cons_succ]
                rw [ih i (by simpa using hi)]
                simp

/-! ## Helper lemmas: the dense state -/

/-- Applying an operation never changes the wire count. -/
theorem applyOp_n (s : LocalQuantumState) (op : QOp) :
    (s.applyOp op).n = s.n := rfl

/-- Folding any operation list never changes the wire count. -/
theorem foldl_applyOp_n (ops : List QOp) (s : LocalQuantumState) :
    (ops.foldl (fold_apply_op LocalQuantumState.applyOp) s).n = s.n := by
  induction ops generalizing s with
  | nil => rfl
  | cons op ops ih => simp [List.foldl_cons, ih, fold_apply_op, LocalQuantumState.applyOp]

/-- The engine always produces a buffer of the full amplitude count. -/
theorem apply_op_length (n : Nat) (op : QOp) (st : List Cpx) (b : Bool) :
    (apply_op n op st b).length = 2 ^ n := by
  cases b <;> simp [apply_op, applyOpPar_eq_seq, applyOpSeq]

/-! ## Helper lemmas: the pending heap -/

/-- A nonempty heap always pops. -/
theorem popMax_cons_ne_none (g : Graph) (x : Nat) (xs : List Nat) :
    popMax g (x :: xs) ≠ none := by
  cases h : popMax g xs with
  | none => simp [popMax, h]
  | some yr => cases yr with
    | mk y r => simp only [popMax, h]; split <;> simp

/-- Only the empty heap fails to pop. -/
theorem popMax_none_iff (g : Graph) (l : List Nat) : popMax g l = none ↔ l = [] := by
  cases l with
  | nil => simp [popMax]
  | cons x xs => simp [popMax_cons_ne_none]

/-- Popping removes exactly one occurrence: the heap is a permutation of
the popped element consed onto the remainder. -/
theorem popMax_perm (g : Graph) :
    ∀ l x rest, popMax g l = some (x, rest) → l.Perm (x :: rest) := by
  intro l
  induction l with
  | nil => intro x rest h; simp [popMax] at h
  | cons a xs ih =>
    intro x rest h
    cases hxs : popMax g xs with
    | none =>
      rw [popMax_none_iff] at hxs
      subst hxs
      simp [popMax] at h
      simp [h.1, h.2]
    | some yr =>
      rcases yr with ⟨y, r⟩
      simp only [popMax, hxs] at h
      by_cases hlt : nodeId g a < nodeId g y
      · rw [if_pos hlt] at h
        simp only [Option.some.injEq, Prod.mk.injEq] at h
        obtain ⟨rfl, rfl⟩ := h
        exact ((ih y r hxs).cons a).trans (List.Perm.swap y a r)
      · rw [if_neg hlt] at h
        simp only [Option.some.injEq, Prod.mk.injEq] at h
        obtain ⟨rfl, rfl⟩ := h
        exact List.Perm.refl _
  
/-- The popped element carries a maximal register identifier. -/
theorem popMax_max (g : Graph) :
    ∀ l x rest, popMax g l = some (x, rest) → ∀ z ∈ l, nodeId g z ≤ nodeId g x := by
  intro l
  induction l with
  | nil => intro x rest h; simp [popMax] at h
  | cons a xs ih =>
    intro x rest h z hz
    cases hxs : popMax g xs with
    | none =>
      rw [popMax_none_iff] at hxs
      subst hxs
      simp [popMax] at h
      rcases List.mem_singleton.mp hz with rfl
      exact h.1 ▸ Nat.le_refl _
    | some yr =>
      rcases yr with ⟨y, r⟩
      simp only [popMax, hxs] at h
      by_cases hlt : nodeId g a < nodeId g y
      · rw [if_pos hlt] at h
        simp only [Option.some.injEq, Prod.mk.injEq] at h
        obtain ⟨rfl, rfl⟩ := h
        rcases List.mem_cons.mp hz with rfl | hz
        · exact Nat.le_of_lt hlt
        · exact ih y r hxs z hz
      · rw [if_neg hlt] at h
        simp only [Option.some.injEq, Prod.mk.injEq] at h
        obtain ⟨rfl, rfl⟩ := h
        rcases List.mem_cons.mp hz with rfl | hz
        · exact Nat.le_refl _
        · exact Nat.le_trans (ih y r hxs z hz) (Nat.le_of_not_lt hlt)

/-! ## Helper lemmas: the operation queue accumulators -/

/-- The front-push loop only ever appends the seed queue at the end. -/
theorem loopFuel_queue_acc (g : Graph) :
    ∀ fuel heap fr q, loopFuel g fuel heap fr q =
      (loopFuel g fuel heap fr []).map (fun r => (r.1, r.2 ++ q)) := by
  intro fuel
  induction fuel with
  | zero =>
    intro heap fr q
    cases hpop : popMax g heap <;> simp [loopFuel, hpop]
  | succ fuel ih =>
    intro heap fr q
    cases hpop : popMax g heap with
    | none => simp [loopFuel, hpop]
    | some xr =>
      rcases xr with ⟨x, rest⟩
      cases hpar : (getNode g x).parent with
      | none =>
        simp only [loopFuel, hpop, hpar]
        exact ih rest (fr ++ [x]) q
      | some par =>
        cases par with
        | owned ps op =>
          simp only [loopFuel, hpop, hpar]
          rw [ih (rest ++ ps) fr (pushOp op q), ih (rest ++ ps) fr (pushOp op [])]
          cases hres : loopFuel g fuel (rest ++ ps) fr [] with
          | none => rfl
          | some r => cases op <;> simp [pushOp]
        | shared p =>
          simp only [loopFuel, hpop, hpar]
          exact ih _ fr q

/-- The back-push loop only ever prepends the seed queue at the front. -/
theorem loopFuelDisc_queue_acc (g : Graph) :
    ∀ fuel heap fr q, loopFuelDisc g fuel heap fr q =
      (loopFuelDisc g fuel heap fr []).map (fun r => (r.1, q ++ r.2)) := by
  intro fuel
  induction fuel with
  | zero =>
    intro heap fr q
    cases hpop : popMax g heap <;> simp [loopFuelDisc, hpop]
  | succ fuel ih =>
    intro heap fr q
    cases hpop : popMax g heap with
    | none => simp [loopFuelDisc, hpop]
    | some xr =>
      rcases xr with ⟨x, rest⟩
      cases hpar : (getNode g x).parent with
      | none =>
        simp only [loopFuelDisc, hpop, hpar]
        exact ih rest (fr ++ [x]) q
      | some par =>
        cases par with
        | owned ps op =>
          simp only [loopFuelDisc, hpop, hpar]
          rw [ih (rest ++ ps) fr (q ++ pushOp op []), ih (rest ++ ps) fr ([] ++ pushOp op [])]
          cases hres : loopFuelDisc g fuel (rest ++ ps) fr [] with
          | none => rfl
          | some r => cases op <;> simp [pushOp]
        | shared p =>
          simp only [loopFuelDisc, hpop, hpar]
          exact ih _ fr q

/-- The queue built by front pushes is the reverse of the queue built by
back pushes: the operation list reverses backward discovery order. -/
theorem loopFuel_rev_disc (g : Graph) :
    ∀ fuel heap fr, loopFuel g fuel heap fr [] =
      (loopFuelDisc g fuel heap fr []).map (fun r => (r.1, r.2.reverse)) := by
  intro fuel
  induction fuel with
  | zero =>
    intro heap fr
    cases hpop : popMax g heap <;> simp [loopFuel, loopFuelDisc, hpop]
  | succ fuel ih =>
    intro heap fr
    cases hpop : popMax g heap with
    | none => simp [loopFuel, loopFuelDisc, hpop]
    | some xr =>
      rcases xr with ⟨x, rest⟩
      cases hpar : (getNode g x).parent with
      | none =>
        simp only [loopFuel, loopFuelDisc, hpop, hpar]
        exact ih rest (fr ++ [x])
      | some par =>
        cases par with
        | owned ps op =>
          simp only [loopFuel, loopFuelDisc, hpop, hpar]
          rw [loopFuel_queue_acc g fuel (rest ++ ps) fr (pushOp op []), ih (rest ++ ps) fr,
            loopFuelDisc_queue_acc g fuel (rest ++ ps) fr ([] ++ pushOp op [])]
          cases hres : loopFuelDisc g fuel (rest ++ ps) fr [] with
          | none => rfl
          | some r => cases op <;> simp [pushOp, List.reverse_append]
        | shared p =>
          simp only [loopFuel, loopFuelDisc, hpop, hpar]
          exact ih _ fr

/-! ## Helper lemmas: the ground-state vector -/

/-- getD of a list of zeros (with zero default) is zero. -/
theorem getD_zero_of_all_zero : ∀ (l : List Cpx) (i : Nat), (∀ c ∈ l, c = 0) → l.getD i 0 = 0
  | [], i, _ => by cases i <;> rfl
  | x :: _, 0, h => h x (List.mem_cons_self x _)
  | _ :: xs, i + 1, h =>
    getD_zero_of_all_zero xs i (fun c hc => h c (List.mem_cons_of_mem _ hc))

/-! ## Claim theorems -/

/-- C1: the required exactly-once visitation invariant fails on the code:
in gBug the register at handle 0 is owned-consumed exactly once (by the
node at handle 1) and additionally reachable through one shared alias
(the node at handle 2), yet the linearizer returns it twice in the
frontier list, because the shared-alias check consults only the current
pending heap and the alias is popped while the referent is not pending. -/
theorem linearizer_double_visits_shared_referent :
    get_opfns_and_frontier gBug 3 = some ([0, 0], []) ∧
      (getNode gBug 1).parent = some (Parent.owned [0] none) ∧
      (getNode gBug 2).parent = some (Parent.shared 0) := by decide

/-- C2: linearization is deterministic - it is a pure function of the
graph and terminal, so two runs return identical frontier and operation
lists - and the pending structure is a priority structure ordered by
register identifier: every pop removes a register of maximal identifier. -/
theorem linearize_deterministic :
    (∀ g t, get_opfns_and_frontier g t = get_opfns_and_frontier g t) ∧
      ∀ g heap x rest, popMax g heap = some (x, rest) →
        ∀ z ∈ heap, nodeId g z ≤ nodeId g x :=
  ⟨fun _ _ => rfl, fun g heap x rest h => popMax_max g heap x rest h⟩

/-- Witness for C2 at a concrete heap of g2. -/
theorem linearize_deterministic_witness : nodeId g2 0 ≤ nodeId g2 2 :=
  linearize_deterministic.2 g2 [0, 2] 2 [0] (by decide) 0 (by simp)

/-- C3: the returned operation list is the reverse of backward discovery
order - running the same traversal with back pushes instead of front
pushes returns the same frontier and the reversed operation list. -/
theorem ops_reverse_discovery (g : Graph) (t : Nat) (fr : List Nat) (os : List QOp)
    (h : get_opfns_and_frontier g t = some (fr, os)) :
    get_ops_discovery g t = some (fr, os.reverse) := by
  unfold get_opfns_and_frontier at h
  unfold get_ops_discovery
  rw [loopFuel_rev_disc] at h
  cases hd : loopFuelDisc g (linFuel g) [t] [] [] with
  | none => rw [hd] at h; simp at h
  | some r =>
    rcases r with ⟨f2, d2⟩
    rw [hd] at h
    simp only [Option.map_some'] at h
    simp only [Option.some.injEq, Prod.mk.injEq] at h
    obtain ⟨rfl, rfl⟩ := h
    simp [List.reverse_reverse]

/-- Witness for C3 at the two-operation chain gLine. -/
theorem ops_reverse_discovery_witness :
    get_ops_discovery gLine 2 = some ([0], [hOp, xOp].reverse) :=
  ops_reverse_discovery gLine 2 [0] [hOp, xOp] (by decide)

/-- C4: run_with_state linearizes, builds the initial state from the
returned frontier, and folds the returned operation list strictly in
list order: the result is one-at-a-time sequential application, and the
state after i + 1 operations is the state after i operations with
operation i applied. -/
theorem run_with_state_folds_in_order {QS : Type} (ap : QS → QOp → QS) (g : Graph) (t : Nat)
    (sb : List Nat → QS) (fr : List Nat) (ops : List QOp)
    (h : get_opfns_and_frontier g t = some (fr, ops)) :
    run_with_state ap g t sb = some (applySeq ap (sb fr) ops) ∧
      ∀ i, i < ops.length →
        applySeq ap (sb fr) (ops.take (i + 1)) =
          ap (applySeq ap (sb fr) (ops.take i)) (ops.getD i ⟨[], []⟩) := by
  constructor
  · unfold run_with_state
    rw [h]
    exact congrArg some (foldl_eq_applySeq ap ops (sb fr))
  · intro i hi
    rw [take_succ_getD ops i ⟨[], []⟩ hi, applySeq_append]
    rfl

/-- Witness for C4: a counting fold over the two-operation chain. -/
theorem run_with_state_folds_in_order_witness :
    run_with_state (fun (s : Nat) (_ : QOp) => s + 1) gLine 2 (fun _ => 0) =
      some (applySeq (fun (s : Nat) (_ : QOp) => s + 1) 0 [hOp, xOp]) :=
  (run_with_state_folds_in_order (fun s _ => s + 1) gLine 2 (fun _ => 0) [0] [hOp, xOp]
    (by decide)).1

/-- C5: the wire count of the state returned by run is the sum, over the
frontier returned by the linearizer, of the number of wire indices each
frontier register denotes (the default factory sizes the initial state
with that sum and no operation changes the wire count). -/
theorem run_sizes_state_from_frontier (g : Graph) (t : Nat) (fr : List Nat) (ops : List QOp)
    (h : get_opfns_and_frontier g t = some (fr, ops)) :
    (run g t).map (fun s => s.n) =
      some ((fr.map (fun q => (getNode g q).indices.length)).sum) := by
  unfold run run_with_state
  rw [h]
  show (some ((ops.foldl (fold_apply_op LocalQuantumState.applyOp)
      (LocalQuantumState.new (sumWires g fr))))).map (fun s => s.n) = _
  simp only [Option.map_some']
  rw [foldl_applyOp_n]
  rfl

/-- Witness for C5 at the zero-operation two-wire graph. -/
theorem run_sizes_state_from_frontier_witness :
    (run g2 2).map (fun s => s.n) =
      some (([1, 0].map (fun q => (getNode g2 q).indices.length)).sum) :=
  run_sizes_state_from_frontier g2 2 [1, 0] [] (by decide)

/-- C6: the state built by LocalQuantumState.new holds 2 ^ n amplitudes,
amplitude 1 at index 0 and amplitude 0 at every other index; and run on
the zero-operation graph over two frontier wires returns amplitude 1 at
index 0 and 0 at indices 1, 2, 3. -/
theorem ground_state_new :
    (∀ n : Nat, (LocalQuantumState.new n).state.length = 2 ^ n ∧
        (LocalQuantumState.new n).state.getD 0 0 = 1 ∧
        ∀ i, 0 < i → i < 2 ^ n → (LocalQuantumState.new n).state.getD i 0 = 0) ∧
      (run g2 2).map LocalQuantumState.state = some [1, 0, 0, 0] := by
  constructor
  · intro n
    have hpos : 0 < 2 ^ n := Nat.pos_pow_of_pos n (by omega)
    refine ⟨by simp [LocalQuantumState.new], ?_, ?_⟩
    · show (((List.range (2 ^ n)).map (fun _ => (0 : Cpx))).set 0 1).getD 0 0 = 1
      cases hz : (List.range (2 ^ n)).map (fun _ => (0 : Cpx)) with
      | nil =>
        have : (2 : Nat) ^ n = 0 := by simpa using congrArg List.length hz
        omega
      | cons z zs => rfl
    · intro i h0 hn
      show (((List.range (2 ^ n)).map (fun _ => (0 : Cpx))).set 0 1).getD i 0 = 0
      cases hz : (List.range (2 ^ n)).map (fun _ => (0 : Cpx)) with
      | nil =>
        have : (2 : Nat) ^ n = 0 := by simpa using congrArg List.length hz
        omega
      | cons z zs =>
        cases i with
        | zero => omega
        | succ i =>
          show zs.getD i 0 = 0
          refine getD_zero_of_all_zero zs i (fun c hc => ?_)
          have : c ∈ (List.range (2 ^ n)).map (fun _ => (0 : Cpx)) := by
            rw [hz]; exact List.mem_cons_of_mem _ hc
          rcases List.mem_map.mp this with ⟨_, _, rfl⟩
          rfl
  · decide

/-- Witness for C6 at n = 2, index 3. -/
theorem ground_state_new_witness : (LocalQuantumState.new 2).state.getD 3 0 = 0 :=
  (ground_state_new.1 2).2.2 3 (by decide) (by decide)

/-- C8: the dense engine takes the parallel path exactly when the wire
count exceeds PARALLEL_THRESHOLD, and the partitioned path computes
exactly the sequential path on every input (in exact arithmetic the
floating tolerance collapses to equality). -/
theorem parallel_dispatch_equiv :
    (∀ (s : LocalQuantumState) (op : QOp),
        (s.applyOp op).state =
          if PARALLEL_THRESHOLD < s.n then applyOpPar s.n op s.state PAR_CHUNK
          else applyOpSeq s.n op s.state) ∧
      ∀ n op st c, applyOpPar n op st c = applyOpSeq n op st := by
  constructor
  · intro s op
    show apply_op s.n op s.state (decide (PARALLEL_THRESHOLD < s.n)) = _
    by_cases h : PARALLEL_THRESHOLD < s.n <;> simp [apply_op, h]
  · exact applyOpPar_eq_seq

/-- C9: the epr_pair circuit for n = 1 ends in the state with amplitude
1 / sqrt 2 exactly at the indices whose two halves match (patterns 00
and 11) and amplitude 0 at the mismatched indices (01 and 10); the
squared magnitude of the matching amplitudes is 1/2. -/
theorem epr_pair_state :
    (run eprGraph 5).map LocalQuantumState.state =
        some [⟨invSqrt2, 0⟩, 0, 0, ⟨invSqrt2, 0⟩] ∧
      magSq ⟨invSqrt2, 0⟩ = ⟨mkRat 1 2, 0⟩ := by decide

/-- C10: applying an operation keeps the wire count, keeps both buffers
at length 2 ^ n, and swaps the buffer roles: the previous primary buffer
becomes the scratch buffer. -/
theorem apply_op_frame (s : LocalQuantumState) (op : QOp)
    (hs : s.state.length = 2 ^ s.n) :
    (s.applyOp op).n = s.n ∧
      (s.applyOp op).state.length = 2 ^ s.n ∧
      (s.applyOp op).arena.length = 2 ^ s.n ∧
      (s.applyOp op).arena = s.state :=
  ⟨rfl, apply_op_length s.n op s.state _, hs, rfl⟩

/-- Witness for C10 on the one-wire ground state. -/
theorem apply_op_frame_witness :
    ((LocalQuantumState.new 1).applyOp xOp).arena.length = 2 ^ (LocalQuantumState.new 1).n :=
  (apply_op_frame (LocalQuantumState.new 1) xOp (by decide)).2.2.1

/-! ## Helper lemmas: termination of the traversal on acyclic graphs -/

/-- The termination measure: sum of W ^ rank over the pending heap, with
W = maxParentLen + 2. -/
def heapMeasure (g : Graph) (rank : Nat → Nat) (heap : List Nat) : Nat :=
  (heap.map (fun h => (maxParentLen g + 2) ^ rank h)).sum

/-- The parent-handle count of a node equals nodePLen. -/
theorem parentHandles_length (g : Graph) (x : Nat) :
    (parentHandles g x).length = nodePLen (getNode g x) := by
  unfold parentHandles nodePLen
  cases (getNode g x).parent with
  | none => rfl
  | some par => cases par <;> rfl

/-- Every member's nodePLen is bounded by the table fold. -/
theorem nodePLen_le_foldr : ∀ (l : List Node) (nd : Node), nd ∈ l →
    nodePLen nd ≤ l.foldr (fun n acc => max (nodePLen n) acc) 0 := by
  intro l
  induction l with
  | nil => intro nd h; simp at h
  | cons a l ih =>
    intro nd h
    rcases List.mem_cons.mp h with rfl | h
    · exact Nat.le_max_left _ _
    · exact Nat.le_trans (ih nd h) (Nat.le_max_right _ _)

/-- An in-range lookup lands in the node table. -/
theorem getNode_mem (g : Graph) (x : Nat) (hx : x < g.nodes.length) :
    getNode g x ∈ g.nodes := by
  unfold getNode
  rw [List.getD_eq_getElem?_getD, List.getElem?_eq_getElem hx]
  exact List.getElem_mem hx

/-- The parent-handle count of every in-range node is bounded by
maxParentLen. -/
theorem parentHandles_length_le (g : Graph) (x : Nat) (hx : x < g.nodes.length) :
    (parentHandles g x).length ≤ maxParentLen g := by
  rw [parentHandles_length]
  exact nodePLen_le_foldr g.nodes (getNode g x) (getNode_mem g x hx)

/-- A short parent list of strictly lower rank weighs strictly less than
one unit of the popped register's rank. -/
theorem heapMeasure_lt_pow (g : Graph) (rank : Nat → Nat) (ps : List Nat) (r : Nat)
    (hr : ∀ p ∈ ps, rank p < r) (hlen : ps.length < maxParentLen g + 2) :
    heapMeasure g rank ps < (maxParentLen g + 2) ^ r := by
  cases r with
  | zero =>
    cases ps with
    | nil => simp [heapMeasure]
    | cons p ps => exact absurd (hr p (List.mem_cons_self p ps)) (Nat.not_lt_zero _)
  | succ r =>
    have hW : 1 ≤ maxParentLen g + 2 := by omega
    have hbound : ∀ y ∈ ps.map (fun h => (maxParentLen g + 2) ^ rank h),
        y ≤ (maxParentLen g + 2) ^ r := by
      intro y hy
      rcases List.mem_map.mp hy with ⟨p, hp, rfl⟩
      exact Nat.pow_le_pow_right hW (by have := hr p hp; omega)
    have hsum := List.sum_le_card_nsmul _ _ hbound
    rw [List.length_map, smul_eq_mul] at hsum
    have hpos : 0 < (maxParentLen g + 2) ^ r := Nat.pos_pow_of_pos r (by omega)
    calc heapMeasure g rank ps ≤ ps.length * (maxParentLen g + 2) ^ r := hsum
      _ < (maxParentLen g + 2) * (maxParentLen g + 2) ^ r :=
        Nat.mul_lt_mul_of_pos_right hlen hpos
      _ = (maxParentLen g + 2) ^ (r + 1) := by rw [Nat.pow_succ, Nat.mul_comm]

/-- Popping splits the measure into the popped register's weight and the
remainder's measure. -/
theorem heapMeasure_pop (g : Graph) (rank : Nat → Nat) (heap : List Nat) (x : Nat)
    (rest : List Nat) (h : popMax g heap = some (x, rest)) :
    heapMeasure g rank heap = (maxParentLen g + 2) ^ rank x + heapMeasure g rank rest := by
  have hperm := (popMax_perm g heap x rest h).map (fun h => (maxParentLen g + 2) ^ rank h)
  unfold heapMeasure
  rw [hperm.sum_eq]
  simp

/-- The measure of an appended heap adds. -/
theorem heapMeasure_append (g : Graph) (rank : Nat → Nat) (a b : List Nat) :
    heapMeasure g rank (a ++ b) = heapMeasure g rank a + heapMeasure g rank b := by
  unfold heapMeasure
  rw [List.map_append, List.sum_append]

/-- Each register's weight is positive. -/
theorem heapMeasure_pos_pow (g : Graph) (rank : Nat → Nat) (x : Nat) :
    0 < (maxParentLen g + 2) ^ rank x :=
  Nat.pos_pow_of_pos _ (by omega)

/-- Main termination lemma: on a well-formed graph with a rank function,
any fuel at least the heap measure lets the traversal loop empty the
pending heap and return. -/
theorem loopFuel_terminates (g : Graph) (rank : Nat → Nat)
    (hwf : WFGraph g) (hrk : RankedBy g rank) :
    ∀ fuel heap fr q, (∀ h ∈ heap, h < g.nodes.length) →
      heapMeasure g rank heap ≤ fuel →
      ∃ res, loopFuel g fuel heap fr q = some res := by
  intro fuel
  induction fuel with
  | zero =>
    intro heap fr q hin hm
    cases hpop : popMax g heap with
    | none => exact ⟨(fr, q), by simp [loopFuel, hpop]⟩
    | some xr =>
      rcases xr with ⟨x, rest⟩
      exfalso
      have hd := heapMeasure_pop g rank heap x rest hpop
      have hp := heapMeasure_pos_pow g rank x
      omega
  | succ fuel ih =>
    intro heap fr q hin hm
    cases hpop : popMax g heap with
    | none => exact ⟨(fr, q), by simp [loopFuel, hpop]⟩
    | some xr =>
      rcases xr with ⟨x, rest⟩
      have hperm := popMax_perm g heap x rest hpop
      have hxmem : x ∈ heap := hperm.symm.subset (List.mem_cons_self x rest)
      have hxin : x < g.nodes.length := hin x hxmem
      have hrest_in : ∀ h ∈ rest, h < g.nodes.length :=
        fun h hh => hin h (hperm.symm.subset (List.mem_cons_of_mem x hh))
      have hd := heapMeasure_pop g rank heap x rest hpop
      cases hpar : (getNode g x).parent with
      | none =>
        have hple : heapMeasure g rank rest ≤ fuel := by
          have := heapMeasure_pos_pow g rank x
          omega
        obtain ⟨res, hres⟩ := ih rest (fr ++ [x]) q hrest_in hple
        exact ⟨res, by simp only [loopFuel, hpop, hpar]; exact hres⟩
      | some par =>
        cases par with
        | owned ps op =>
          have hpe : parentHandles g x = ps := by unfold parentHandles; rw [hpar]
          have hps_in : ∀ p ∈ rest ++ ps, p < g.nodes.length := by
            intro p hp
            rcases List.mem_append.mp hp with hp | hp
            · exact hrest_in p hp
            · exact hwf x hxin p (hpe ▸ hp)
          have hps_rank : ∀ p ∈ ps, rank p < rank x :=
            fun p hp => hrk.2 x hxin p (hpe ▸ hp)
          have hps_len : ps.length < maxParentLen g + 2 := by
            have := parentHandles_length_le g x hxin
            rw [hpe] at this
            omega
          have hlt := heapMeasure_lt_pow g rank ps (rank x) hps_rank hps_len
          have hple : heapMeasure g rank (rest ++ ps) ≤ fuel := by
            rw [heapMeasure_append]
            omega
          obtain ⟨res, hres⟩ := ih (rest ++ ps) fr (pushOp op q) hps_in hple
          exact ⟨res, by simp only [loopFuel, hpop, hpar]; exact hres⟩
        | shared p =>
          have hpe : parentHandles g x = [p] := by unfold parentHandles; rw [hpar]
          have hpin : p < g.nodes.length :=
            hwf x hxin p (hpe ▸ List.mem_singleton.mpr rfl)
          have hprank : rank p < rank x :=
            hrk.2 x hxin p (hpe ▸ List.mem_singleton.mpr rfl)
          cases hq : qubit_in_heap g p rest with
          | true =>
            have hple : heapMeasure g rank rest ≤ fuel := by
              have := heapMeasure_pos_pow g rank x
              omega
            obtain ⟨res, hres⟩ := ih rest fr q hrest_in hple
            refine ⟨res, ?_⟩
            simp only [loopFuel, hpop, hpar, hq, if_true]
            exact hres
          | false =>
            have hmem_in : ∀ h ∈ rest ++ [p], h < g.nodes.length := by
              intro h hh
              rcases List.mem_append.mp hh with hh | hh
              · exact hrest_in h hh
              · exact List.mem_singleton.mp hh ▸ hpin
            have hlt : heapMeasure g rank [p] < (maxParentLen g + 2) ^ rank x := by
              unfold heapMeasure
              simp only [List.map_cons, List.map_nil, List.sum_cons, List.sum_nil, Nat.add_zero]
              exact Nat.pow_lt_pow_right (by omega) hprank
            have hple : heapMeasure g rank (rest ++ [p]) ≤ fuel := by
              rw [heapMeasure_append]
              omega
            obtain ⟨res, hres⟩ := ih (rest ++ [p]) fr q hmem_in hple
            refine ⟨res, ?_⟩
            simp only [loopFuel, hpop, hpar, hq, if_false]
            exact hres

/-- C7: on every well-formed acyclic provenance graph the linearizer
empties its pending heap in finitely many steps (the default budget
suffices, so run returns a state), while on the malformed cyclic graph
gCyc the traversal loop never empties the pending heap however much fuel
it is given - it re-enqueues the self-aliased register forever. -/
theorem run_terminates_acyclic :
    (∀ g t, WFGraph g → (∃ rank, RankedBy g rank) → t < g.nodes.length →
        ∃ res, get_opfns_and_frontier g t = some res) ∧
      ∀ fuel, loopFuel gCyc fuel [0] [] [] = none := by
  constructor
  · rintro g t hwf ⟨rank, hrk⟩ ht
    apply loopFuel_terminates g rank hwf hrk (linFuel g) [t] [] []
    · intro h hh
      rcases List.mem_singleton.mp hh with rfl
      exact ht
    · show heapMeasure g rank [t] ≤ linFuel g
      unfold heapMeasure linFuel
      simp only [List.map_cons, List.map_nil, List.sum_cons, List.sum_nil, Nat.add_zero]
      exact Nat.pow_le_pow_right (by omega) (by have := hrk.1 t; omega)
  · intro fuel
    induction fuel with
    | zero => rfl
    | succ fuel ih =>
      have hstep : loopFuel gCyc (fuel + 1) [0] [] [] = loopFuel gCyc fuel [0] [] [] := rfl
      rw [hstep]
      exact ih

/-- Witness for C7: the zero-operation graph g2 is well formed and ranked
by min with its node count, so its linearization returns. -/
theorem run_terminates_acyclic_witness :
    (∃ res, get_opfns_and_frontier g2 2 = some res) ∧ loopFuel gCyc 9 [0] [] [] = none :=
  ⟨run_terminates_acyclic.1 g2 2 (by unfold WFGraph; decide)
      ⟨fun h => min h 3, fun h => Nat.min_le_right h 3, by decide⟩ (by decide),
    run_terminates_acyclic.2 9⟩
